import Mathlib

/-
Verification of the fidget JIT code generator against its specification.

The development shallowly embeds the relevant parts of the source:

  * `src/fidget/src/asm/dynasm.rs` — the AArch64 assemblers (float,
    interval, vector), the flavor-generic driver `build_asm_fn`, the
    stack bookkeeping `AssemblerData::check_stack`, and the evaluator
    handles (`JitIntervalFunc::get_evaluator`, `JitVecEval::eval_s`);
  * `src/fidget/src/jit/point.rs` — the point assembler (AArch64 min/max
    with choice and simplify traces; the x86-64 `build_op` shim);
  * `src/jitfive/src/stage2.rs` — the `Stage2::from` group-graph pass.

Machine `f32` values are modelled by `Fidget.F`: either NaN or an exact
rational.  Arithmetic instructions are modelled exactly over ℚ (the
rounding of IEEE single precision is abstracted away; every claim below
is stated symbolically through these operations, never through decimal
approximation).  Signed zeros and infinities are not distinguished: the
division modelled here is only consulted by theorems on arguments whose
guards exclude a zero divisor, matching the guarded uses in the source.
-/

namespace Fidget

/-- A machine single-precision value: NaN, or a finite value modelled as
an exact rational. -/
inductive F where
  | nan : F
  | fin : ℚ → F
deriving DecidableEq, Repr

namespace F

/-- AArch64 `fcmgt` / x86 ordered greater-than: false whenever either
operand is NaN. -/
def fcmgt : F → F → Bool
  | .fin a, .fin b => decide (b < a)
  | _, _ => false

/-- Ordered less-than (`fcmlt`, or the `b.mi` branch after `fcmp`):
false whenever either operand is NaN. -/
def fcmlt : F → F → Bool
  | .fin a, .fin b => decide (a < b)
  | _, _ => false

/-- AArch64 `fcmle`: ordered less-or-equal, false on NaN operands. -/
def fcmle : F → F → Bool
  | .fin a, .fin b => decide (a ≤ b)
  | _, _ => false

/-- AArch64 `fmin`: propagates NaN if either operand is NaN. -/
def fmin : F → F → F
  | .fin a, .fin b => .fin (min a b)
  | _, _ => .nan

/-- AArch64 `fmax`: propagates NaN if either operand is NaN. -/
def fmax : F → F → F
  | .fin a, .fin b => .fin (max a b)
  | _, _ => .nan

/-- AArch64 `fminnm`: treats a NaN operand as missing. -/
def fminnm : F → F → F
  | .fin a, .fin b => .fin (min a b)
  | .fin a, .nan => .fin a
  | .nan, b => b

/-- AArch64 `fmaxnm`: treats a NaN operand as missing. -/
def fmaxnm : F → F → F
  | .fin a, .fin b => .fin (max a b)
  | .fin a, .nan => .fin a
  | .nan, b => b

/-- `fadd`, modelled exactly over ℚ. -/
def fadd : F → F → F
  | .fin a, .fin b => .fin (a + b)
  | _, _ => .nan

/-- `fsub`, modelled exactly over ℚ. -/
def fsub : F → F → F
  | .fin a, .fin b => .fin (a - b)
  | _, _ => .nan

/-- `fmul`, modelled exactly over ℚ. -/
def fmul : F → F → F
  | .fin a, .fin b => .fin (a * b)
  | _, _ => .nan

/-- `fneg`. -/
def fneg : F → F
  | .fin a => .fin (-a)
  | .nan => .nan

/-- `fabs`. -/
def fabs : F → F
  | .fin a => .fin |a|
  | .nan => .nan

/-- `fdiv`.  IEEE division by zero yields ±∞, which this model does not
represent; the theorems below only consult `fdiv` under guards
(`lower > 0` or `upper < 0` on a well-formed interval) that exclude a
zero divisor, exactly as the source does. -/
def fdiv : F → F → F
  | .fin a, .fin b => if b = 0 then .nan else .fin (a / b)
  | _, _ => .nan

/-- `fsqrt`: NaN for negative inputs.  The nonnegative branch is the
machine square root, which is irrational in general; it is modelled by
the computable `Rat.sqrt` stand-in (the claims only mention `fsqrt`
symbolically, so only `fsqrt 0 = 0`-style facts are ever evaluated). -/
def fsqrt : F → F
  | .fin a => if a < 0 then .nan else .fin (Rat.sqrt a)
  | .nan => .nan

end F

/-- An interval held in a 2-lane SIMD register: `(lower, upper)`. -/
abbrev IntF := F × F

/-- Number of tape-addressable virtual registers (`REGISTER_LIMIT`). -/
def REGISTER_LIMIT : Nat := 24

/-- Offset before the first useable physical register (`OFFSET`). -/
def OFFSET : Nat := 8

/-- The physical register reserved for immediates (`IMM_REG`). -/
def IMM_REG : Nat := 6

def CHOICE_LEFT : Nat := 1
def CHOICE_RIGHT : Nat := 2
def CHOICE_BOTH : Nat := 3

/-- `fn reg(r: u8) -> u32`: tape-local register to physical register,
using wrapping `u8` addition so the immediate register's virtual index
(below `OFFSET`) wraps back around. -/
def reg (r : Nat) : Nat := (r % 256 + OFFSET) % 256

/-- `u8::wrapping_sub`, used by `load_imm` to produce the virtual index
of the reserved immediate register. -/
def wrappingSub8 (a b : Nat) : Nat := (a % 256 + 256 - b % 256) % 256

/-- The virtual index returned by every flavor's `load_imm`. -/
def immVirtual : Nat := wrappingSub8 IMM_REG OFFSET

/-- The state touched by a choice-byte write: the byte array behind the
choice pointer (`x0`), addressed relative to the array base, and the
current write position of that pointer. -/
structure ChoiceCtx where
  mem : Nat → Nat
  pos : Nat

/-- The `ldrb w16, [x0]` / `orr` / `strb w16, [x0], #1` sequence ending
every interval min/max: read the accumulator byte, OR the tag into it,
store it back, and post-increment the pointer by one. -/
def writeChoice (s : ChoiceCtx) (tag : Nat) : ChoiceCtx :=
  { mem := Function.update s.mem s.pos (Nat.lor (s.mem s.pos) tag),
    pos := s.pos + 1 }

namespace IntervalAssembler

/-- `build_neg`: componentwise `fneg` then `rev64` lane swap. -/
def build_neg (a : IntF) : IntF := (F.fneg a.2, F.fneg a.1)

/-- Four-lane `fmaxnmv` reduction. -/
def fmaxnmv4 (a b c d : F) : F := F.fmaxnm (F.fmaxnm a b) (F.fmaxnm c d)

/-- Four-lane `fminnmv` reduction. -/
def fminnmv4 (a b c d : F) : F := F.fminnm (F.fminnm a b) (F.fminnm c d)

/-- `build_abs`: compute `fcmle lhs, #0.0` per lane, take `fabs` per
lane, then branch: upper ≤ 0 → swap lanes; lower ≤ 0 → reduce with
`fmaxnmv` over the (upper-zeroed) vector, put 0 in the low lane and fall
through to the same swap; else identity.  The two upper lanes of the
128-bit register are zero after the 64-bit `fabs`, so the reduction sees
`(|aL|, |aH|, 0, 0)`. -/
def build_abs (a : IntF) : IntF :=
  let lowerLE := F.fcmle a.1 (F.fin 0)
  let upperLE := F.fcmle a.2 (F.fin 0)
  let ab : IntF := (F.fabs a.1, F.fabs a.2)
  if upperLE then (ab.2, ab.1)
  else if lowerLE then (F.fin 0, fmaxnmv4 ab.1 ab.2 (F.fin 0) (F.fin 0))
  else ab

/-- `build_recip`: if `lhs.lower > 0.0` or else `lhs.upper < 0.0`,
divide `[1,1]` lanewise by the input and `rev64`-swap, giving
`[1/upper, 1/lower]`; otherwise the division spans zero and the result
is `[NaN, NaN]`. -/
def build_recip (a : IntF) : IntF :=
  if F.fcmgt a.1 (F.fin 0) then
    (F.fdiv (F.fin 1) a.2, F.fdiv (F.fin 1) a.1)
  else if F.fcmlt a.2 (F.fin 0) then
    (F.fdiv (F.fin 1) a.2, F.fdiv (F.fin 1) a.1)
  else (F.nan, F.nan)

/-- `build_sqrt`: compute `fcmle lhs, #0.0` per lane; if the upper lane
bit is set (`upper ≤ 0`) the result is `[NaN, NaN]`; else if the lower
lane bit is set (`lower ≤ 0`) the result is `[0, fsqrt upper]`; else
`[fsqrt lower, fsqrt upper]`. -/
def build_sqrt (a : IntF) : IntF :=
  let lowerLE := F.fcmle a.1 (F.fin 0)
  let upperLE := F.fcmle a.2 (F.fin 0)
  if upperLE then (F.nan, F.nan)
  else if lowerLE then (F.fin 0, F.fsqrt a.2)
  else (F.fsqrt a.1, F.fsqrt a.2)

/-- `build_square`: square both lanes; if `upper ≤ 0` swap lanes; else
if `lower ≤ 0` the interval straddles zero and the result is
`[0, fmaxnmv(lower², upper², 0, 0)]`; else keep `[lower², upper²]`. -/
def build_square (a : IntF) : IntF :=
  let lowerLE := F.fcmle a.1 (F.fin 0)
  let upperLE := F.fcmle a.2 (F.fin 0)
  let sq : IntF := (F.fmul a.1 a.1, F.fmul a.2 a.2)
  if upperLE then (sq.2, sq.1)
  else if lowerLE then (F.fin 0, fmaxnmv4 sq.1 sq.2 (F.fin 0) (F.fin 0))
  else sq

/-- `build_add`: lanewise `fadd`. -/
def build_add (a b : IntF) : IntF := (F.fadd a.1 b.1, F.fadd a.2 b.2)

/-- `build_sub`: `rev64` the right operand then lanewise `fsub`, giving
`[aL − bH, aH − bL]`. -/
def build_sub (a b : IntF) : IntF := (F.fsub a.1 b.2, F.fsub a.2 b.1)

/-- `build_mul`: form the four endpoint products
`(aH·bL, aL·bH, aL·bL, aH·bH)` in a 4-wide vector (by `rev64`, a `d`-lane
move and a `d`-lane `dup`), then reduce with `fminnmv` for the lower
bound and `fmaxnmv` for the upper. -/
def build_mul (a b : IntF) : IntF :=
  let p1 := F.fmul a.2 b.1
  let p2 := F.fmul a.1 b.2
  let p3 := F.fmul a.1 b.1
  let p4 := F.fmul a.2 b.2
  (fminnmv4 p1 p2 p3 p4, fmaxnmv4 p1 p2 p3 p4)

/-- `build_max`: `zip2`/`zip1` pack `(aH, bH)` against `(bL, aL)`, and a
single `fcmgt` computes lane 1 = `aL > bH`, lane 0 = `bL > aH`.  Lane 1
set → output `lhs`, OR `CHOICE_LEFT`; else lane 0 set → output `rhs`,
OR `CHOICE_RIGHT`; else lanewise `fmax` and OR `CHOICE_BOTH`.  Every
path ends in the read/OR/store/post-increment of the choice byte. -/
def build_max (a b : IntF) (s : ChoiceCtx) : IntF × ChoiceCtx :=
  let aLgtbH := F.fcmgt a.1 b.2
  let bLgtaH := F.fcmgt b.1 a.2
  if aLgtbH then (a, writeChoice s CHOICE_LEFT)
  else if bLgtaH then (b, writeChoice s CHOICE_RIGHT)
  else ((F.fmax a.1 b.1, F.fmax a.2 b.2), writeChoice s CHOICE_BOTH)

/-- `build_min`: same packed comparison as `build_max`.  Lane 1
(`aL > bH`) set → output `rhs`, OR `CHOICE_RIGHT`; else lane 0
(`bL > aH`) set → output `lhs`, OR `CHOICE_LEFT`; else lanewise `fmin`
and OR `CHOICE_BOTH`; then store the byte and post-increment. -/
def build_min (a b : IntF) (s : ChoiceCtx) : IntF × ChoiceCtx :=
  let aLgtbH := F.fcmgt a.1 b.2
  let bLgtaH := F.fcmgt b.1 a.2
  if aLgtbH then (b, writeChoice s CHOICE_RIGHT)
  else if bLgtaH then (a, writeChoice s CHOICE_LEFT)
  else ((F.fmin a.1 b.1, F.fmin a.2 b.2), writeChoice s CHOICE_BOTH)

end IntervalAssembler

/-- The virtual ISA consumed by `build_asm_fn` (`enum AsmOp`).  Register
and memory operands are modelled as `Nat`; `f32` immediates are modelled
as ℚ, like every other finite float in this development. -/
inductive AsmOp where
  | Load (reg mem : Nat)
  | Store (reg mem : Nat)
  | Input (out i : Nat)
  | NegReg (out arg : Nat)
  | AbsReg (out arg : Nat)
  | RecipReg (out arg : Nat)
  | SqrtReg (out arg : Nat)
  | CopyReg (out arg : Nat)
  | SquareReg (out arg : Nat)
  | AddRegReg (out lhs rhs : Nat)
  | MulRegReg (out lhs rhs : Nat)
  | SubRegReg (out lhs rhs : Nat)
  | MinRegReg (out lhs rhs : Nat)
  | MaxRegReg (out lhs rhs : Nat)
  | AddRegImm (out arg : Nat) (imm : ℚ)
  | MulRegImm (out arg : Nat) (imm : ℚ)
  | SubImmReg (out arg : Nat) (imm : ℚ)
  | SubRegImm (out arg : Nat) (imm : ℚ)
  | MinRegImm (out arg : Nat) (imm : ℚ)
  | MaxRegImm (out arg : Nat) (imm : ℚ)
  | CopyImm (out : Nat) (imm : ℚ)
deriving DecidableEq, Repr

/-- One call made by the driver to a flavor builder.  `build_asm_fn` is
flavor-generic, so its per-opcode dispatch is recorded as a trace of
abstract builder invocations. -/
inductive Call where
  | load_imm (imm : ℚ)
  | build_load (reg mem : Nat)
  | build_store (mem reg : Nat)
  | build_input (out i : Nat)
  | build_copy (out lhs : Nat)
  | build_neg (out lhs : Nat)
  | build_abs (out lhs : Nat)
  | build_recip (out lhs : Nat)
  | build_sqrt (out lhs : Nat)
  | build_square (out lhs : Nat)
  | build_add (out lhs rhs : Nat)
  | build_sub (out lhs rhs : Nat)
  | build_mul (out lhs rhs : Nat)
  | build_min (out lhs rhs : Nat)
  | build_max (out lhs rhs : Nat)
deriving DecidableEq, Repr

/-- The dispatch of `build_asm_fn`, one match arm per opcode.  Each
`*Imm` arm first calls `load_imm` — whose return value is
`IMM_REG.wrapping_sub(OFFSET)` in every flavor — and then the
two-register builder on that returned virtual index. -/
def lowerOp : AsmOp → List Call
  | .Load r m => [.build_load r m]
  | .Store r m => [.build_store m r]
  | .Input out i => [.build_input out i]
  | .NegReg out a => [.build_neg out a]
  | .AbsReg out a => [.build_abs out a]
  | .RecipReg out a => [.build_recip out a]
  | .SqrtReg out a => [.build_sqrt out a]
  | .CopyReg out a => [.build_copy out a]
  | .SquareReg out a => [.build_square out a]
  | .AddRegReg out l r => [.build_add out l r]
  | .MulRegReg out l r => [.build_mul out l r]
  | .SubRegReg out l r => [.build_sub out l r]
  | .MinRegReg out l r => [.build_min out l r]
  | .MaxRegReg out l r => [.build_max out l r]
  | .AddRegImm out a i => [.load_imm i, .build_add out a immVirtual]
  | .MulRegImm out a i => [.load_imm i, .build_mul out a immVirtual]
  | .SubImmReg out a i => [.load_imm i, .build_sub out immVirtual a]
  | .SubRegImm out a i => [.load_imm i, .build_sub out a immVirtual]
  | .MinRegImm out a i => [.load_imm i, .build_min out a immVirtual]
  | .MaxRegImm out a i => [.load_imm i, .build_max out a immVirtual]
  | .CopyImm out i => [.load_imm i, .build_copy out immVirtual]

/-- Machine state of the compiled interval function: the physical SIMD
register file (indexed by physical number, so virtual register `v` lives
at `reg v` and the inputs arrive in physical 0–2), the spill area
(addressed by slot, whose stack-byte offset is computed by `checkStack`
below), the assembler's `mem_offset`, and the choice byte array with its
write position. -/
structure IState where
  regs : Nat → IntF
  mem : Nat → IntF
  memOffset : Nat
  cmem : Nat → Nat
  cpos : Nat

/-- `AssemblerData::check_stack`: given the element size, the current
`mem_offset` and a spill slot, returns the new `mem_offset`, the amount
subtracted from the stack pointer, and the slot's offset from the new
stack pointer.  Growth is rounded up to a multiple of 16 bytes. -/
def checkStack (sz memOffset slot : Nat) : Nat × Nat × Nat :=
  let mem := (slot - REGISTER_LIMIT) * sz
  if memOffset < mem then
    let memAligned := ((mem + 15) / 16) * 16
    (memAligned, memAligned - memOffset, memAligned - mem)
  else
    (memOffset, 0, memOffset - mem)

/-- Interval `load_imm`: `dup` the immediate into both lanes of the
reserved physical register `IMM_REG`. -/
def loadImmI (s : IState) (imm : ℚ) : IState :=
  { s with regs := Function.update s.regs IMM_REG (F.fin imm, F.fin imm) }

/-- Write an interval to virtual register `o` (physical `reg o`). -/
def setRegI (s : IState) (o : Nat) (v : IntF) : IState :=
  { s with regs := Function.update s.regs (reg o) v }

/-- Read virtual register `r` (physical `reg r`). -/
def getRegI (s : IState) (r : Nat) : IntF := s.regs (reg r)

/-- Run one min/max choice-writing builder result against the state. -/
def applyChoiceI (s : IState) (o : Nat) (r : IntF × ChoiceCtx) : IState :=
  { (setRegI s o r.1) with cmem := r.2.mem, cpos := r.2.pos }

/-- One step of the compiled interval function, following the dispatch
of `build_asm_fn` instantiated with `IntervalAssembler`. -/
def stepOp (s : IState) : AsmOp → IState
  | .Load r m =>
      let c := checkStack 8 s.memOffset m
      { s with memOffset := c.1,
               regs := Function.update s.regs (reg r) (s.mem m) }
  | .Store r m =>
      let c := checkStack 8 s.memOffset m
      { s with memOffset := c.1,
               mem := Function.update s.mem m (s.regs (reg r)) }
  | .Input out i => setRegI s out (s.regs i)
  | .NegReg out a => setRegI s out (IntervalAssembler.build_neg (getRegI s a))
  | .AbsReg out a => setRegI s out (IntervalAssembler.build_abs (getRegI s a))
  | .RecipReg out a =>
      setRegI s out (IntervalAssembler.build_recip (getRegI s a))
  | .SqrtReg out a =>
      setRegI s out (IntervalAssembler.build_sqrt (getRegI s a))
  | .CopyReg out a => setRegI s out (getRegI s a)
  | .SquareReg out a =>
      setRegI s out (IntervalAssembler.build_square (getRegI s a))
  | .AddRegReg out l r =>
      setRegI s out (IntervalAssembler.build_add (getRegI s l) (getRegI s r))
  | .MulRegReg out l r =>
      setRegI s out (IntervalAssembler.build_mul (getRegI s l) (getRegI s r))
  | .SubRegReg out l r =>
      setRegI s out (IntervalAssembler.build_sub (getRegI s l) (getRegI s r))
  | .MinRegReg out l r =>
      applyChoiceI s out
        (IntervalAssembler.build_min (getRegI s l) (getRegI s r)
          ⟨s.cmem, s.cpos⟩)
  | .MaxRegReg out l r =>
      applyChoiceI s out
        (IntervalAssembler.build_max (getRegI s l) (getRegI s r)
          ⟨s.cmem, s.cpos⟩)
  | .AddRegImm out a i =>
      let s := loadImmI s i
      setRegI s out
        (IntervalAssembler.build_add (getRegI s a) (getRegI s immVirtual))
  | .MulRegImm out a i =>
      let s := loadImmI s i
      setRegI s out
        (IntervalAssembler.build_mul (getRegI s a) (getRegI s immVirtual))
  | .SubImmReg out a i =>
      let s := loadImmI s i
      setRegI s out
        (IntervalAssembler.build_sub (getRegI s immVirtual) (getRegI s a))
  | .SubRegImm out a i =>
      let s := loadImmI s i
      setRegI s out
        (IntervalAssembler.build_sub (getRegI s a) (getRegI s immVirtual))
  | .MinRegImm out a i =>
      let s := loadImmI s i
      applyChoiceI s out
        (IntervalAssembler.build_min (getRegI s a) (getRegI s immVirtual)
          ⟨s.cmem, s.cpos⟩)
  | .MaxRegImm out a i =>
      let s := loadImmI s i
      applyChoiceI s out
        (IntervalAssembler.build_max (getRegI s a) (getRegI s immVirtual)
          ⟨s.cmem, s.cpos⟩)
  | .CopyImm out i =>
      let s := loadImmI s i
      setRegI s out (getRegI s immVirtual)

/-- One interval evaluation: the compiled function executes every tape
instruction in order. -/
def execI (ops : List AsmOp) (s : IState) : IState := ops.foldl stepOp s

/-- Number of choice bytes an opcode writes: 1 for the four min/max
forms, 0 otherwise. -/
def choiceDelta : AsmOp → Nat
  | .MinRegReg _ _ _ | .MaxRegReg _ _ _ => 1
  | .MinRegImm _ _ _ | .MaxRegImm _ _ _ => 1
  | _ => 0

/-- Number of min/max opcodes in an instruction stream. -/
def countChoices (ops : List AsmOp) : Nat := (ops.map choiceDelta).sum

/-- A planned tape, as consumed by the JIT handles: its instruction
stream. -/
structure Tape where
  ops : List AsmOp

/-- Modelled from the spec: the `Tape` type lives outside the core (only
its interface is consumed here) and its accessor `choice_count()`
"return[s] the number of min/max opcodes" in the tape. -/
def Tape.choice_count (t : Tape) : Nat := countChoices t.ops

/-- `JitIntervalFunc::get_evaluator`: the raw choice buffer is
`vec![0u8; self.choice_count]` where `choice_count` was copied from
`t.choice_count()` by `from_tape`. -/
def get_evaluator_choices_raw (t : Tape) : List Nat :=
  List.replicate t.choice_count 0

/-- Trace state of the point flavor's min/max: the choice byte array
behind `x1` with its write position, and the simplify byte behind `x2`
together with an instrumentation bit recording whether this run wrote
it. -/
structure PointTrace where
  cmem : Nat → Nat
  cpos : Nat
  simplifyByte : Nat
  simplifyWritten : Bool

namespace PointAssembler

/-- AArch64 `PointAssembler::build_min`: load the accumulator byte,
`fcmp lhs, rhs`; `b.mi` (ordered less) → output `lhs`, OR `CHOICE_LEFT`
and store the byte to the simplify pointer; `b.gt` (ordered greater) →
output `rhs`, OR `CHOICE_RIGHT` and store to the simplify pointer;
otherwise (equal or NaN) emit `fmin` and OR `CHOICE_BOTH` with no
simplify write.  Every path stores the accumulator through the choice
pointer and post-increments it. -/
def build_min (lhs rhs : F) (s : PointTrace) : F × PointTrace :=
  let w14 := s.cmem s.cpos
  if F.fcmlt lhs rhs then
    let w := Nat.lor w14 CHOICE_LEFT
    (lhs, { cmem := Function.update s.cmem s.cpos w, cpos := s.cpos + 1,
            simplifyByte := w, simplifyWritten := true })
  else if F.fcmgt lhs rhs then
    let w := Nat.lor w14 CHOICE_RIGHT
    (rhs, { cmem := Function.update s.cmem s.cpos w, cpos := s.cpos + 1,
            simplifyByte := w, simplifyWritten := true })
  else
    let w := Nat.lor w14 CHOICE_BOTH
    (F.fmin lhs rhs,
     { s with cmem := Function.update s.cmem s.cpos w, cpos := s.cpos + 1 })

/-- AArch64 `PointAssembler::build_max`: as `build_min` with the sides
exchanged — `b.mi` (lhs < rhs) picks `rhs` with `CHOICE_RIGHT`, `b.gt`
picks `lhs` with `CHOICE_LEFT`, and the equal-or-NaN path emits `fmax`
with `CHOICE_BOTH` and no simplify write. -/
def build_max (lhs rhs : F) (s : PointTrace) : F × PointTrace :=
  let w14 := s.cmem s.cpos
  if F.fcmlt lhs rhs then
    let w := Nat.lor w14 CHOICE_RIGHT
    (rhs, { cmem := Function.update s.cmem s.cpos w, cpos := s.cpos + 1,
            simplifyByte := w, simplifyWritten := true })
  else if F.fcmgt lhs rhs then
    let w := Nat.lor w14 CHOICE_LEFT
    (lhs, { cmem := Function.update s.cmem s.cpos w, cpos := s.cpos + 1,
            simplifyByte := w, simplifyWritten := true })
  else
    let w := Nat.lor w14 CHOICE_BOTH
    (F.fmax lhs rhs,
     { s with cmem := Function.update s.cmem s.cpos w, cpos := s.cpos + 1 })

end PointAssembler

/-- State of the x86-64 point function: the xmm register file (indexed
by physical number) and the `[rsp - 4]` scratch slot used by
`build_op`'s spill path. -/
structure X86State where
  xmm : Nat → F
  scratch : F

namespace PointAssemblerX86

/-- x86-64 `PointAssembler::build_op`: when `lhs_reg == out_reg` just
run the emitted operation `f`; otherwise save `lhs` to `[rsp - 4]`, run
`f`, then `addss lhs, rhs`, `movss out, lhs`, and restore `lhs` from
`[rsp - 4]`.  (Note the spill path performs `addss` regardless of which
operation `f` was.) -/
def build_op (out lhs rhs : Nat) (f : X86State → X86State)
    (s : X86State) : X86State :=
  if lhs = out then f s
  else
    let s1 : X86State := { s with scratch := s.xmm (reg lhs) }
    let s2 := f s1
    let s3 : X86State := { s2 with
      xmm := Function.update s2.xmm (reg lhs)
        (F.fadd (s2.xmm (reg lhs)) (s2.xmm (reg rhs))) }
    let s4 : X86State := { s3 with
      xmm := Function.update s3.xmm (reg out) (s3.xmm (reg lhs)) }
    { s4 with xmm := Function.update s4.xmm (reg lhs) s4.scratch }

/-- x86-64 `PointAssembler::build_sub`: `build_op` around
`subss out, rhs`. -/
def build_sub (out lhs rhs : Nat) (s : X86State) : X86State :=
  build_op out lhs rhs
    (fun t => { t with
      xmm := Function.update t.xmm (reg out)
        (F.fsub (t.xmm (reg out)) (t.xmm (reg rhs))) }) s

end PointAssemblerX86

/-- The per-chunk output writes of `JitVecEval::eval_s`: write the four
computed lanes through `out.get_mut(i + j)` in order, returning (and
abandoning the whole loop) at the first index past the end. -/
def writeFirst : List F → List F → List F
  | _, [] => []
  | [], out => out
  | v :: vs, _ :: os => v :: writeFirst vs os

/-- `JitVecEval::eval_s`, with the compiled 4-lane function modelled by
a lane-parallel scalar oracle `g` (the vector assembler lowers every
opcode to lane-parallel SIMD, so the compiled function acts
independently on each lane).  The Rust loop walks `i = 0, 4, 8, …` over
the slices; reading chunk `i` corresponds to splitting four heads off
the remaining lists.  If any of the three input slices ends before four
elements are read, the function returns with nothing further written —
including nothing for the trailing partial chunk.  If the output slice
ends mid-chunk, the lanes that fit are written and the loop stops. -/
def eval_s (g : F → F → F → F) :
    List F → List F → List F → List F → List F
  | x0 :: x1 :: x2 :: x3 :: xs, y0 :: y1 :: y2 :: y3 :: ys,
    z0 :: z1 :: z2 :: z3 :: zs, out =>
    let v0 := g x0 y0 z0
    let v1 := g x1 y1 z1
    let v2 := g x2 y2 z2
    let v3 := g x3 y3 z3
    match out with
    | _ :: _ :: _ :: _ :: os =>
        v0 :: v1 :: v2 :: v3 :: eval_s g xs ys zs os
    | os => writeFirst [v0, v1, v2, v3] os
  | _, _, _, out => out

/-- A math operation of `jitfive`'s stage-0 graph, reduced to the only
interface `Stage2::from` consumes from it: `iter_children`. -/
structure Op0 where
  children : List Nat
deriving DecidableEq, Repr

/-- A `stage1::Group`: enabling choices (opaque here, modelled by `Nat`
identifiers since they are only cloned) and member nodes. -/
structure Group1 where
  choices : List Nat
  nodes : List Nat
deriving DecidableEq, Repr

/-- `Stage1`: node operations tagged with their owning group, the root,
the groups, the choice count and the variable map (only cloned, modelled
as an association list). -/
structure Stage1 where
  ops : List (Op0 × Nat)
  root : Nat
  groups : List Group1
  num_choices : Nat
  vars : List (String × Nat)

/-- A `stage2::Group`: the stage-1 fields plus the downstream and
upstream group lists. -/
structure Group2 where
  choices : List Nat
  nodes : List Nat
  downstream : List Nat
  upstream : List Nat
deriving DecidableEq, Repr

/-- `Stage2`. -/
structure Stage2 where
  ops : List (Op0 × Nat)
  root : Nat
  groups : List Group2
  num_choices : Nat
  vars : List (String × Nat)

/-- `t.ops[n]` (out-of-range indices return a childless node in group 0;
the source indexes panics-on-miss, so theorems never rely on the
default). -/
def opAt (t : Stage1) (n : Nat) : Op0 × Nat := t.ops.getD n (⟨[]⟩, 0)

/-- The iteration space of `Stage2::from`'s triple loop: every pair
`(group_index, child_group)` visited, in order — for each enumerated
group, for each of its nodes, for each child of that node, the pair of
the group's index and the child node's group. -/
def edgeList (t : Stage1) : List (Nat × Nat) :=
  t.groups.enum.flatMap fun gg =>
    gg.2.nodes.flatMap fun n =>
      (opAt t n).1.children.map fun c => (gg.1, (opAt t c).2)

/-- The `downstream` BTreeSet of group `h`: the loop inserts
`child_group` whenever `child_group != group_index` and
`group_index = h`. -/
def downstreamSet (t : Stage1) (h : Nat) : Finset Nat :=
  (edgeList t).foldl
    (fun s p => if p.1 = h ∧ p.2 ≠ p.1 then insert p.2 s else s) ∅

/-- The `upstream` BTreeSet of group `g`: the loop inserts
`group_index` whenever `child_group != group_index` and
`child_group = g`. -/
def upstreamSet (t : Stage1) (g : Nat) : Finset Nat :=
  (edgeList t).foldl
    (fun s p => if p.2 = g ∧ p.2 ≠ p.1 then insert p.1 s else s) ∅

/-- `impl From<&Stage1> for Stage2`: copy `ops`, `root`, `num_choices`
and `vars`; zip the groups with their computed downstream/upstream sets,
collected into vectors (a BTreeSet iterates in ascending order, which
`Finset.sort (· ≤ ·)` reproduces). -/
def Stage2.ofStage1 (t : Stage1) : Stage2 :=
  { ops := t.ops
    root := t.root
    groups := t.groups.enum.map fun gg =>
      { choices := gg.2.choices
        nodes := gg.2.nodes
        downstream := (downstreamSet t gg.1).sort (· ≤ ·)
        upstream := (upstreamSet t gg.1).sort (· ≤ ·) }
    num_choices := t.num_choices
    vars := t.vars }

section Claims

/-- C1: the interval flavor's min and max lowerings compute the two
comparisons `aL > bH` and `bL > aH`; when both are false the output is
the lane-parallel `fmin` (resp. `fmax`) of the operands and the choice
byte is ORed with `Both` (3); when exactly one is true the output is the
dominating side's interval and the choice byte is ORed with `Left` (1)
or `Right` (2) accordingly; in every case the accumulator byte is read,
ORed, stored back through the choice pointer, and the pointer advances
by exactly 1. -/
theorem claim_c1 (a b : IntF) (s : ChoiceCtx) :
    (F.fcmgt a.1 b.2 = false → F.fcmgt b.1 a.2 = false →
      IntervalAssembler.build_min a b s =
        ((F.fmin a.1 b.1, F.fmin a.2 b.2), writeChoice s CHOICE_BOTH) ∧
      IntervalAssembler.build_max a b s =
        ((F.fmax a.1 b.1, F.fmax a.2 b.2), writeChoice s CHOICE_BOTH)) ∧
    (F.fcmgt a.1 b.2 = true → F.fcmgt b.1 a.2 = false →
      IntervalAssembler.build_min a b s = (b, writeChoice s CHOICE_RIGHT) ∧
      IntervalAssembler.build_max a b s = (a, writeChoice s CHOICE_LEFT)) ∧
    (F.fcmgt a.1 b.2 = false → F.fcmgt b.1 a.2 = true →
      IntervalAssembler.build_min a b s = (a, writeChoice s CHOICE_LEFT) ∧
      IntervalAssembler.build_max a b s = (b, writeChoice s CHOICE_RIGHT)) ∧
    ((∃ tagMin, (IntervalAssembler.build_min a b s).2 = writeChoice s tagMin) ∧
     (∃ tagMax, (IntervalAssembler.build_max a b s).2 = writeChoice s tagMax)) ∧
    ((IntervalAssembler.build_min a b s).2.pos = s.pos + 1 ∧
     (IntervalAssembler.build_max a b s).2.pos = s.pos + 1) := by
  refine ⟨fun h1 h2 => ?_, fun h1 h2 => ?_, fun h1 h2 => ?_, ⟨?_, ?_⟩, ?_, ?_⟩
  · exact ⟨by simp [IntervalAssembler.build_min, h1, h2],
           by simp [IntervalAssembler.build_max, h1, h2]⟩
  · exact ⟨by simp [IntervalAssembler.build_min, h1, h2],
           by simp [IntervalAssembler.build_max, h1, h2]⟩
  · exact ⟨by simp [IntervalAssembler.build_min, h1, h2],
           by simp [IntervalAssembler.build_max, h1, h2]⟩
  · unfold IntervalAssembler.build_min
    by_cases h1 : F.fcmgt a.1 b.2
    · exact ⟨CHOICE_RIGHT, by simp [h1]⟩
    · by_cases h2 : F.fcmgt b.1 a.2
      · exact ⟨CHOICE_LEFT, by simp [h1, h2]⟩
      · exact ⟨CHOICE_BOTH, by simp [h1, h2]⟩
  · unfold IntervalAssembler.build_max
    by_cases h1 : F.fcmgt a.1 b.2
    · exact ⟨CHOICE_LEFT, by simp [h1]⟩
    · by_cases h2 : F.fcmgt b.1 a.2
      · exact ⟨CHOICE_RIGHT, by simp [h1, h2]⟩
      · exact ⟨CHOICE_BOTH, by simp [h1, h2]⟩
  · by_cases h1 : F.fcmgt a.1 b.2 <;> by_cases h2 : F.fcmgt b.1 a.2 <;>
      simp [IntervalAssembler.build_min, h1, h2, writeChoice]
  · by_cases h1 : F.fcmgt a.1 b.2 <;> by_cases h2 : F.fcmgt b.1 a.2 <;>
      simp [IntervalAssembler.build_max, h1, h2, writeChoice]

/-- C1 witness: on `a = [0,1]`, `b = [2,3]` the single comparison
`bL > aH` holds, so min picks the left side and max the right. -/
theorem claim_c1_witness :
    IntervalAssembler.build_min (F.fin 0, F.fin 1) (F.fin 2, F.fin 3)
        ⟨fun _ => 0, 0⟩ =
      ((F.fin 0, F.fin 1), writeChoice ⟨fun _ => 0, 0⟩ CHOICE_LEFT) ∧
    IntervalAssembler.build_max (F.fin 0, F.fin 1) (F.fin 2, F.fin 3)
        ⟨fun _ => 0, 0⟩ =
      ((F.fin 2, F.fin 3), writeChoice ⟨fun _ => 0, 0⟩ CHOICE_RIGHT) :=
  (claim_c1 (F.fin 0, F.fin 1) (F.fin 2, F.fin 3) ⟨fun _ => 0, 0⟩).2.2.1
    (by decide) (by decide)

/-- C2 counterexample: the claim asserts `[NaN, NaN]` is produced
exactly when `aH < 0`, and that `aL < 0, aH = 0` yields `[0, 0]`.  The
lowering tests `fcmle` (≤) on the upper lane, so `a = [−1, 0]` — whose
upper bound is not `< 0` — already produces `[NaN, NaN]`. -/
theorem claim_c2_counterexample :
    IntervalAssembler.build_sqrt (F.fin (-1), F.fin 0) = (F.nan, F.nan) ∧
    ¬((0 : ℚ) < 0) := by decide

/-- C2 (amended): the interval sqrt lowering returns `[NaN, NaN]`
exactly when `aH ≤ 0` (not `aH < 0`: the upper-lane test is `fcmle`);
when `aH > 0` and `aL ≤ 0` it returns `[0, √aH]`; and when `aH > 0` and
`aL > 0` it returns `[√aL, √aH]`.  In particular `aL < 0, aH = 0` yields
`[NaN, NaN]`, not `[0, 0]`. -/
theorem claim_c2_amended (l h : ℚ) :
    (IntervalAssembler.build_sqrt (F.fin l, F.fin h) = (F.nan, F.nan) ↔
      h ≤ 0) ∧
    (0 < h → l ≤ 0 →
      IntervalAssembler.build_sqrt (F.fin l, F.fin h) =
        (F.fin 0, F.fsqrt (F.fin h))) ∧
    (0 < h → 0 < l →
      IntervalAssembler.build_sqrt (F.fin l, F.fin h) =
        (F.fsqrt (F.fin l), F.fsqrt (F.fin h))) := by
  unfold IntervalAssembler.build_sqrt
  rcases le_or_lt h 0 with hh | hh
  · simp [F.fcmle, hh, not_lt.mpr hh]
  · rcases le_or_lt l 0 with hl | hl
    · simp [F.fcmle, F.fsqrt, hl, not_le.mpr hh, not_lt.mpr hh.le,
        not_lt.mpr hl]
    · simp [F.fcmle, F.fsqrt, not_le.mpr hh, not_le.mpr hl,
        not_lt.mpr hh.le, not_lt.mpr hl.le]

/-- C2 witness: `√[−2, 4] = [0, √4] = [0, 2]`. -/
theorem claim_c2_witness :
    IntervalAssembler.build_sqrt (F.fin (-2), F.fin 4) =
      (F.fin 0, F.fsqrt (F.fin 4)) ∧ F.fsqrt (F.fin 4) = F.fin 2 :=
  ⟨(claim_c2_amended (-2) 4).2.1 (by norm_num) (by norm_num), by
    have h4 : Nat.sqrt 4 = 2 := by
      rw [show (4 : ℕ) = 2 * 2 from rfl, Nat.sqrt_eq]
    simp [F.fsqrt, h4]⟩

/-- C8: for a well-formed input interval `[aL, aH]`, the recip lowering
returns `[1/aH, 1/aL]` (division then lane swap) exactly when the
interval is strictly positive (`aL > 0`) or strictly negative
(`aH < 0`), and `[NaN, NaN]` in every other case — the interval spans or
touches zero, and the NaN is a contract value, not an error. -/
theorem claim_c8 (l h : ℚ) (hw : l ≤ h) :
    (0 < l ∨ h < 0 →
      IntervalAssembler.build_recip (F.fin l, F.fin h) =
        (F.fin (1 / h), F.fin (1 / l))) ∧
    (¬(0 < l ∨ h < 0) →
      IntervalAssembler.build_recip (F.fin l, F.fin h) =
        (F.nan, F.nan)) := by
  unfold IntervalAssembler.build_recip
  constructor
  · rintro (hl | hh)
    · have hh0 : 0 < h := lt_of_lt_of_le hl hw
      simp [F.fcmgt, hl, F.fdiv, hl.ne', hh0.ne']
    · have hl0 : l < 0 := lt_of_le_of_lt hw hh
      simp [F.fcmgt, F.fcmlt, not_lt.mpr hl0.le, hh, F.fdiv,
        hl0.ne, hh.ne]
  · intro hno
    push_neg at hno
    simp [F.fcmgt, F.fcmlt, not_lt.mpr hno.1, not_lt.mpr hno.2]

/-- C8 witness: `1/[−2, −1] = [−1, −1/2]`, and `1/[−2, 3]` spans zero
and yields `[NaN, NaN]`. -/
theorem claim_c8_witness :
    IntervalAssembler.build_recip (F.fin (-2), F.fin (-1)) =
      (F.fin (1 / (-1 : ℚ)), F.fin (1 / (-2 : ℚ))) ∧
    IntervalAssembler.build_recip (F.fin (-2), F.fin 3) =
      (F.nan, F.nan) :=
  ⟨(claim_c8 (-2) (-1) (by decide)).1 (Or.inr (by decide)),
   (claim_c8 (-2) 3 (by decide)).2 (by decide)⟩

/-- C6: every immediate-operand opcode is lowered by first emitting
`load_imm(i)`, whose returned virtual index is
`IMM_REG.wrapping_sub(OFFSET)` — wrapping back to the reserved physical
register 6, below `OFFSET = 8` — followed by the two-register builder:
`AddRegImm(o,a,i)` becomes `build_add(o,a,r)`; `SubImmReg(o,a,i)`
becomes `build_sub(o,r,a)` with the operands flipped; `SubRegImm(o,a,i)`
becomes `build_sub(o,a,r)`; `CopyImm(o,i)` becomes `build_copy(o,r)`
(and likewise for `MulRegImm`, `MinRegImm`, `MaxRegImm`). -/
theorem claim_c6 (o a : Nat) (i : ℚ) :
    lowerOp (.AddRegImm o a i) = [.load_imm i, .build_add o a immVirtual] ∧
    lowerOp (.SubImmReg o a i) = [.load_imm i, .build_sub o immVirtual a] ∧
    lowerOp (.SubRegImm o a i) = [.load_imm i, .build_sub o a immVirtual] ∧
    lowerOp (.CopyImm o i) = [.load_imm i, .build_copy o immVirtual] ∧
    lowerOp (.MulRegImm o a i) = [.load_imm i, .build_mul o a immVirtual] ∧
    lowerOp (.MinRegImm o a i) = [.load_imm i, .build_min o a immVirtual] ∧
    lowerOp (.MaxRegImm o a i) = [.load_imm i, .build_max o a immVirtual] ∧
    immVirtual = wrappingSub8 IMM_REG OFFSET ∧
    reg immVirtual = IMM_REG ∧ IMM_REG = 6 ∧ IMM_REG < OFFSET :=
  ⟨rfl, rfl, rfl, rfl, rfl, rfl, rfl, rfl, by decide, rfl, by decide⟩

/-- C5 demonstration state: virtual register 1 holds 5.0 and virtual
register 2 holds 3.0 (physical xmm indices `reg 1 = 9`, `reg 2 = 10`). -/
def x86demo : X86State :=
  ⟨fun i => if i = reg 1 then F.fin 5 else if i = reg 2 then F.fin 3
    else F.fin 0, F.fin 0⟩

/-- C5 is a code bug: with `out_reg ≠ lhs_reg`, `build_op`'s spill path
hardcodes `addss`, so `SubRegReg` stores `lhs + rhs = 8.0` instead of
the difference `lhs − rhs = 2.0` claimed (the `out_reg = lhs_reg` path
does compute the difference). -/
theorem claim_c5_bug :
    (PointAssemblerX86.build_sub 0 1 2 x86demo).xmm (reg 0) = F.fin 8 ∧
    F.fsub (x86demo.xmm (reg 1)) (x86demo.xmm (reg 2)) = F.fin 2 ∧
    (PointAssemblerX86.build_sub 1 1 2 x86demo).xmm (reg 1) = F.fin 2 := by
  have r0 : reg 0 = 8 := rfl
  have r1 : reg 1 = 9 := rfl
  have r2 : reg 2 = 10 := rfl
  refine ⟨?_, ?_, ?_⟩ <;>
    simp [PointAssemblerX86.build_sub, PointAssemblerX86.build_op, x86demo,
      Function.update, r0, r1, r2, F.fadd, F.fsub, F.fin.injEq] <;> norm_num

/-- ORing a tag with a set bit into an accumulator never produces 0. -/
theorem lorFlagNeZero (a t i : Nat) (hi : Nat.testBit t i = true) :
    Nat.lor a t ≠ 0 := by
  intro h
  have h2 := congrArg (fun n => Nat.testBit n i) h
  rw [show Nat.lor a t = a ||| t from rfl] at h2
  simp [Nat.testBit_lor, hi] at h2

/-- Ordered greater implies ordered less is false. -/
theorem fcmlt_false_of_fcmgt (a b : F) (h : F.fcmgt a b = true) :
    F.fcmlt a b = false := by
  cases a <;> cases b <;> simp [F.fcmgt, F.fcmlt] at h ⊢
  exact h.le

/-- C7: in the point flavor's min and max lowerings, `lhs < rhs` picks
left (min keeps `lhs`, max keeps `rhs` with `CHOICE_RIGHT` — the
eliminated side differs per op), `lhs > rhs` picks the other side, and
the equal-or-NaN case emits the native `fmin`/`fmax` with
`CHOICE_BOTH`; the choice byte is ORed and stored with a
post-incremented pointer in every case, and a non-zero simplify flag is
written to the second pointer exactly on the two eliminating branches,
never on `Both`. -/
theorem claim_c7 (lhs rhs : F) (s : PointTrace) :
    (F.fcmlt lhs rhs = true →
      PointAssembler.build_min lhs rhs s =
        (lhs, { cmem := Function.update s.cmem s.cpos
                  (Nat.lor (s.cmem s.cpos) CHOICE_LEFT),
                cpos := s.cpos + 1,
                simplifyByte := Nat.lor (s.cmem s.cpos) CHOICE_LEFT,
                simplifyWritten := true }) ∧
      PointAssembler.build_max lhs rhs s =
        (rhs, { cmem := Function.update s.cmem s.cpos
                  (Nat.lor (s.cmem s.cpos) CHOICE_RIGHT),
                cpos := s.cpos + 1,
                simplifyByte := Nat.lor (s.cmem s.cpos) CHOICE_RIGHT,
                simplifyWritten := true })) ∧
    (F.fcmgt lhs rhs = true →
      PointAssembler.build_min lhs rhs s =
        (rhs, { cmem := Function.update s.cmem s.cpos
                  (Nat.lor (s.cmem s.cpos) CHOICE_RIGHT),
                cpos := s.cpos + 1,
                simplifyByte := Nat.lor (s.cmem s.cpos) CHOICE_RIGHT,
                simplifyWritten := true }) ∧
      PointAssembler.build_max lhs rhs s =
        (lhs, { cmem := Function.update s.cmem s.cpos
                  (Nat.lor (s.cmem s.cpos) CHOICE_LEFT),
                cpos := s.cpos + 1,
                simplifyByte := Nat.lor (s.cmem s.cpos) CHOICE_LEFT,
                simplifyWritten := true })) ∧
    (F.fcmlt lhs rhs = false → F.fcmgt lhs rhs = false →
      PointAssembler.build_min lhs rhs s =
        (F.fmin lhs rhs,
         { cmem := Function.update s.cmem s.cpos
             (Nat.lor (s.cmem s.cpos) CHOICE_BOTH),
           cpos := s.cpos + 1,
           simplifyByte := s.simplifyByte,
           simplifyWritten := s.simplifyWritten }) ∧
      PointAssembler.build_max lhs rhs s =
        (F.fmax lhs rhs,
         { cmem := Function.update s.cmem s.cpos
             (Nat.lor (s.cmem s.cpos) CHOICE_BOTH),
           cpos := s.cpos + 1,
           simplifyByte := s.simplifyByte,
           simplifyWritten := s.simplifyWritten })) ∧
    (F.fcmlt lhs rhs = true ∨ F.fcmgt lhs rhs = true →
      (PointAssembler.build_min lhs rhs s).2.simplifyWritten = true ∧
      (PointAssembler.build_min lhs rhs s).2.simplifyByte ≠ 0 ∧
      (PointAssembler.build_max lhs rhs s).2.simplifyWritten = true ∧
      (PointAssembler.build_max lhs rhs s).2.simplifyByte ≠ 0) ∧
    ((PointAssembler.build_min lhs rhs s).2.cpos = s.cpos + 1 ∧
     (PointAssembler.build_max lhs rhs s).2.cpos = s.cpos + 1) := by
  refine ⟨fun h1 => ?_, fun h2 => ?_, fun h1 h2 => ?_, ?_, ?_, ?_⟩
  · exact ⟨by simp [PointAssembler.build_min, h1],
           by simp [PointAssembler.build_max, h1]⟩
  · have h1 := fcmlt_false_of_fcmgt lhs rhs h2
    exact ⟨by simp [PointAssembler.build_min, h1, h2],
           by simp [PointAssembler.build_max, h1, h2]⟩
  · exact ⟨by simp [PointAssembler.build_min, h1, h2],
           by simp [PointAssembler.build_max, h1, h2]⟩
  · rintro (h1 | h2)
    · refine ⟨?_, ?_, ?_, ?_⟩ <;>
        simp [PointAssembler.build_min, PointAssembler.build_max, h1] <;>
        first
          | exact lorFlagNeZero _ _ 0 (by decide)
          | exact lorFlagNeZero _ _ 1 (by decide)
    · have h1 := fcmlt_false_of_fcmgt lhs rhs h2
      refine ⟨?_, ?_, ?_, ?_⟩ <;>
        simp [PointAssembler.build_min, PointAssembler.build_max, h1, h2] <;>
        first
          | exact lorFlagNeZero _ _ 1 (by decide)
          | exact lorFlagNeZero _ _ 0 (by decide)
  · by_cases h1 : F.fcmlt lhs rhs <;> by_cases h2 : F.fcmgt lhs rhs <;>
      simp [PointAssembler.build_min, h1, h2]
  · by_cases h1 : F.fcmlt lhs rhs <;> by_cases h2 : F.fcmgt lhs rhs <;>
      simp [PointAssembler.build_max, h1, h2]

/-- C7 witness: at `lhs = 1 < rhs = 2` with a zeroed trace state, min
keeps the left side and max the right, both writing the simplify
flag. -/
theorem claim_c7_witness :
    PointAssembler.build_min (F.fin 1) (F.fin 2) ⟨fun _ => 0, 0, 0, false⟩ =
      (F.fin 1, { cmem := Function.update (fun _ => 0) 0
                    (Nat.lor 0 CHOICE_LEFT),
                  cpos := 1, simplifyByte := Nat.lor 0 CHOICE_LEFT,
                  simplifyWritten := true }) ∧
    PointAssembler.build_max (F.fin 1) (F.fin 2) ⟨fun _ => 0, 0, 0, false⟩ =
      (F.fin 2, { cmem := Function.update (fun _ => 0) 0
                    (Nat.lor 0 CHOICE_RIGHT),
                  cpos := 1, simplifyByte := Nat.lor 0 CHOICE_RIGHT,
                  simplifyWritten := true }) :=
  (claim_c7 (F.fin 1) (F.fin 2) ⟨fun _ => 0, 0, 0, false⟩).1 (by decide)

/-- Monotonicity of `check_stack`: the offset only grows. -/
theorem checkStack_ge (sz m slot : Nat) : m ≤ (checkStack sz m slot).1 := by
  simp only [checkStack]
  split
  · have h1 := Nat.div_add_mod ((slot - REGISTER_LIMIT) * sz + 15) 16
    have h2 := Nat.mod_lt ((slot - REGISTER_LIMIT) * sz + 15)
      (show 0 < 16 by decide)
    omega
  · exact le_refl m

/-- `check_stack` keeps the offset 16-byte aligned. -/
theorem checkStack_mod (sz m slot : Nat) (h : m % 16 = 0) :
    (checkStack sz m slot).1 % 16 = 0 := by
  simp only [checkStack]
  split
  · exact Nat.mul_mod_left _ 16
  · exact h

/-- The stack-pointer decrement of one `check_stack` call equals the
offset growth. -/
theorem checkStack_sub (sz m slot : Nat) :
    (checkStack sz m slot).2.1 = (checkStack sz m slot).1 - m := by
  simp only [checkStack]
  split
  · rfl
  · simp

/-- A run of `check_stack` calls over the spill slots touched during
emission, accumulating the total stack-pointer decrement. -/
def runStack (sz : Nat) : Nat → Nat → List Nat → Nat × Nat
  | m, total, [] => (m, total)
  | m, total, slot :: rest =>
      let c := checkStack sz m slot
      runStack sz c.1 (total + c.2.1) rest

/-- Invariant of a `check_stack` run: alignment and monotonicity are
preserved, and the accumulated stack decrement equals the total offset
growth. -/
theorem runStack_invariant (sz : Nat) :
    ∀ (slots : List Nat) (m total0 : Nat), m % 16 = 0 →
      (runStack sz m total0 slots).1 % 16 = 0 ∧
      m ≤ (runStack sz m total0 slots).1 ∧
      (runStack sz m total0 slots).2 =
        total0 + ((runStack sz m total0 slots).1 - m) := by
  intro slots
  induction slots with
  | nil => intro m t0 h; simpa [runStack] using h
  | cons slot rest ih =>
      intro m t0 h
      simp only [runStack]
      obtain ⟨h1, h2, h3⟩ :=
        ih (checkStack sz m slot).1 (t0 + (checkStack sz m slot).2.1)
          (checkStack_mod sz m slot h)
      refine ⟨h1, le_trans (checkStack_ge sz m slot) h2, ?_⟩
      have hsub := checkStack_sub sz m slot
      have hge := checkStack_ge sz m slot
      omega

/-- C9: throughout emission `mem_offset` only grows and stays a
multiple of 16 (growth happens in 16-byte-aligned chunks); each
`check_stack` call returns the slot offset
`mem_offset − (s − REGISTER_LIMIT) · sizeof(T)` computed against the
updated (final-at-that-point) `mem_offset`; and over any run starting
from the prologue's `mem_offset = 0`, the total stack-pointer decrement
equals the final `mem_offset`, which is exactly what the epilogue's
single `add sp, sp, mem_offset` undoes. -/
theorem claim_c9 (sz : Nat) :
    (∀ m slot, m % 16 = 0 →
      m ≤ (checkStack sz m slot).1 ∧
      (checkStack sz m slot).1 % 16 = 0 ∧
      (checkStack sz m slot).2.2 =
        (checkStack sz m slot).1 - (slot - REGISTER_LIMIT) * sz) ∧
    (∀ slots m total0, m % 16 = 0 →
      (runStack sz m total0 slots).1 % 16 = 0 ∧
      m ≤ (runStack sz m total0 slots).1 ∧
      (runStack sz m total0 slots).2 =
        total0 + ((runStack sz m total0 slots).1 - m)) ∧
    (∀ slots, (runStack sz 0 0 slots).2 = (runStack sz 0 0 slots).1) := by
  refine ⟨fun m slot h => ⟨checkStack_ge sz m slot,
    checkStack_mod sz m slot h, ?_⟩,
    fun slots m t0 h => runStack_invariant sz slots m t0 h, fun slots => ?_⟩
  · simp only [checkStack]
    split <;> rfl
  · have h := (runStack_invariant sz slots 0 0 (by decide)).2.2
    omega

/-- C9 witness: one interval spill to slot 24 (element size 8) grows the
offset from 0 to 16, subtracts 16 from the stack pointer, and places the
slot at offset 16 − 0·8 = 16... slot 25 then lands at offset 8. -/
theorem claim_c9_witness :
    checkStack 8 0 25 = (16, 16, 8) ∧
    0 ≤ (checkStack 8 0 25).1 ∧ (checkStack 8 0 25).1 % 16 = 0 ∧
    (checkStack 8 0 25).2.2 =
      (checkStack 8 0 25).1 - (25 - REGISTER_LIMIT) * 8 ∧
    (runStack 8 0 0 [25, 27]).2 = (runStack 8 0 0 [25, 27]).1 :=
  ⟨by decide,
   ((claim_c9 8).1 0 25 (by decide)).1,
   ((claim_c9 8).1 0 25 (by decide)).2.1,
   ((claim_c9 8).1 0 25 (by decide)).2.2,
   (claim_c9 8).2.2 [25, 27]⟩

/-- Every branch of the interval `build_min` post-increments the choice
pointer by one. -/
theorem build_min_pos_eq (a b : IntF) (s : ChoiceCtx) :
    (IntervalAssembler.build_min a b s).2.pos = s.pos + 1 := by
  unfold IntervalAssembler.build_min
  by_cases h1 : F.fcmgt a.1 b.2 <;> by_cases h2 : F.fcmgt b.1 a.2 <;>
    simp [h1, h2, writeChoice]

/-- Every branch of the interval `build_max` post-increments the choice
pointer by one. -/
theorem build_max_pos_eq (a b : IntF) (s : ChoiceCtx) :
    (IntervalAssembler.build_max a b s).2.pos = s.pos + 1 := by
  unfold IntervalAssembler.build_max
  by_cases h1 : F.fcmgt a.1 b.2 <;> by_cases h2 : F.fcmgt b.1 a.2 <;>
    simp [h1, h2, writeChoice]

/-- Each opcode advances the choice write pointer by exactly its
min/max count: one for the four min/max forms, zero otherwise. -/
theorem stepOp_cpos (s : IState) (op : AsmOp) :
    (stepOp s op).cpos = s.cpos + choiceDelta op := by
  cases op <;>
    simp [stepOp, choiceDelta, setRegI, loadImmI, applyChoiceI,
      build_min_pos_eq, build_max_pos_eq]

/-- Over a full evaluation the choice pointer advances by exactly the
tape's min/max count. -/
theorem execI_cpos (ops : List AsmOp) :
    ∀ s : IState, (execI ops s).cpos = s.cpos + countChoices ops := by
  induction ops with
  | nil => intro s; simp [execI, countChoices]
  | cons op rest ih =>
      intro s
      have h := ih (stepOp s op)
      simp only [execI, List.foldl] at h ⊢
      rw [h, stepOp_cpos]
      simp [countChoices]
      omega

/-- C3: the interval evaluator's raw choice buffer is allocated with
exactly `tape.choice_count()` bytes; one interval evaluation advances
the choice write pointer by one per min/max opcode (including
`MinRegImm`/`MaxRegImm`), so the number of bytes written equals the
tape's min/max count with no pointer drift. -/
theorem claim_c3 (t : Tape) (s : IState) :
    (get_evaluator_choices_raw t).length = t.choice_count ∧
    t.choice_count = countChoices t.ops ∧
    (execI t.ops s).cpos = s.cpos + countChoices t.ops :=
  ⟨List.length_replicate _ _, rfl, execI_cpos t.ops s⟩

/-- Membership after folding conditional inserts over a list: the
element was there initially or some visited pair passing the filter
produced it. -/
theorem mem_foldl_insertIf {α : Type} [DecidableEq α]
    (l : List (Nat × Nat)) (P : Nat × Nat → Prop) [DecidablePred P]
    (f : Nat × Nat → α) (init : Finset α) (x : α) :
    (x ∈ l.foldl (fun s p => if P p then insert (f p) s else s) init) ↔
      x ∈ init ∨ ∃ p ∈ l, P p ∧ f p = x := by
  induction l generalizing init with
  | nil => simp
  | cons hd tl ih =>
      simp only [List.foldl_cons]
      rw [ih]
      by_cases hp : P hd
      · simp only [hp, if_true, Finset.mem_insert, List.mem_cons]
        constructor
        · rintro ((rfl | hx) | ⟨p, hpl, hPp, hfp⟩)
          · exact Or.inr ⟨hd, Or.inl rfl, hp, rfl⟩
          · exact Or.inl hx
          · exact Or.inr ⟨p, Or.inr hpl, hPp, hfp⟩
        · rintro (hx | ⟨p, (rfl | hpl), hPp, hfp⟩)
          · exact Or.inl (Or.inr hx)
          · exact Or.inl (Or.inl hfp.symm)
          · exact Or.inr ⟨p, hpl, hPp, hfp⟩
      · simp only [hp, if_false, List.mem_cons]
        constructor
        · rintro (hx | ⟨p, hpl, hPp, hfp⟩)
          · exact Or.inl hx
          · exact Or.inr ⟨p, Or.inr hpl, hPp, hfp⟩
        · rintro (hx | ⟨p, (rfl | hpl), hPp, hfp⟩)
          · exact Or.inl hx
          · exact absurd hPp hp
          · exact Or.inr ⟨p, hpl, hPp, hfp⟩

/-- `g` lands in `downstream[h]` exactly when the loop visited the pair
`(h, g)` with `g ≠ h`. -/
theorem mem_downstreamSet (t : Stage1) (h g : Nat) :
    g ∈ downstreamSet t h ↔ (h, g) ∈ edgeList t ∧ g ≠ h := by
  unfold downstreamSet
  rw [mem_foldl_insertIf]
  simp only [Finset.not_mem_empty, false_or]
  constructor
  · rintro ⟨⟨p1, p2⟩, hp, ⟨hp1, hp2⟩, rfl⟩
    subst hp1
    exact ⟨hp, hp2⟩
  · rintro ⟨hmem, hne⟩
    exact ⟨(h, g), hmem, ⟨rfl, hne⟩, rfl⟩

/-- `x` lands in `upstream[g]` exactly when the loop visited the pair
`(x, g)` with `g ≠ x`. -/
theorem mem_upstreamSet (t : Stage1) (g x : Nat) :
    x ∈ upstreamSet t g ↔ (x, g) ∈ edgeList t ∧ g ≠ x := by
  unfold upstreamSet
  rw [mem_foldl_insertIf]
  simp only [Finset.not_mem_empty, false_or]
  constructor
  · rintro ⟨⟨p1, p2⟩, hp, ⟨hp1, hp2⟩, rfl⟩
    subst hp1
    exact ⟨hp, hp2⟩
  · rintro ⟨hmem, hne⟩
    exact ⟨(x, g), hmem, ⟨rfl, hne⟩, rfl⟩

/-- A pair is visited by the triple loop exactly when the first
component indexes a group one of whose nodes has a child whose group is
the second component. -/
theorem mem_edgeList (t : Stage1) (h g : Nat) :
    (h, g) ∈ edgeList t ↔ ∃ grp, t.groups[h]? = some grp ∧
      ∃ n ∈ grp.nodes, ∃ c ∈ (opAt t n).1.children, (opAt t c).2 = g := by
  unfold edgeList
  simp only [List.mem_flatMap, List.mem_map]
  constructor
  · rintro ⟨⟨gi, grp⟩, hmem, n, hn, c, hc, heq⟩
    rw [List.mem_enum_iff_getElem?] at hmem
    cases heq
    exact ⟨grp, hmem, n, hn, c, hc, rfl⟩
  · rintro ⟨grp, hget, n, hn, c, hc, heq⟩
    refine ⟨(h, grp), ?_, n, hn, c, hc, ?_⟩
    · rw [List.mem_enum_iff_getElem?]
      exact hget
    · rw [heq]

/-- The group entry produced by `Stage2::from` at index `h`. -/
theorem ofStage1_groups_getElem (t : Stage1) (h : Nat) :
    (Stage2.ofStage1 t).groups[h]? = (t.groups[h]?).map fun grp =>
      { choices := grp.choices, nodes := grp.nodes,
        downstream := (downstreamSet t h).sort (· ≤ ·),
        upstream := (upstreamSet t h).sort (· ≤ ·) } := by
  unfold Stage2.ofStage1
  rw [List.getElem?_map, List.getElem?_enum]
  cases t.groups[h]? <;> simp

/-- C10: `Stage2::from` copies `ops`, `root`, `num_choices` and `vars`
unchanged; group `g` appears in group `h`'s downstream list iff `h`
appears in `g`'s upstream list, and this holds exactly when some node of
`h` has a child node stored in the distinct group `g`; both lists are
sorted ascending with no duplicates. -/
theorem claim_c10 (t : Stage1) :
    (Stage2.ofStage1 t).ops = t.ops ∧
    (Stage2.ofStage1 t).root = t.root ∧
    (Stage2.ofStage1 t).num_choices = t.num_choices ∧
    (Stage2.ofStage1 t).vars = t.vars ∧
    (∀ h g, g ∈ downstreamSet t h ↔ h ∈ upstreamSet t g) ∧
    (∀ (h g : Nat) (grp2h grp2g : Group2),
      (Stage2.ofStage1 t).groups[h]? = some grp2h →
      (Stage2.ofStage1 t).groups[g]? = some grp2g →
      (g ∈ grp2h.downstream ↔ h ∈ grp2g.upstream)) ∧
    (∀ (h : Nat) (grp1 : Group1) (grp2 : Group2), t.groups[h]? = some grp1 →
      (Stage2.ofStage1 t).groups[h]? = some grp2 →
      grp2.choices = grp1.choices ∧ grp2.nodes = grp1.nodes ∧
      grp2.downstream.Sorted (· ≤ ·) ∧ grp2.downstream.Nodup ∧
      grp2.upstream.Sorted (· ≤ ·) ∧ grp2.upstream.Nodup ∧
      (∀ g, g ∈ grp2.downstream ↔
        (g ≠ h ∧ ∃ n ∈ grp1.nodes, ∃ c ∈ (opAt t n).1.children,
          (opAt t c).2 = g)) ∧
      (∀ g, g ∈ grp2.upstream ↔
        (h ≠ g ∧ ∃ grpg, t.groups[g]? = some grpg ∧
          ∃ n ∈ grpg.nodes, ∃ c ∈ (opAt t n).1.children,
            (opAt t c).2 = h))) := by
  have hdual : ∀ h g, g ∈ downstreamSet t h ↔ h ∈ upstreamSet t g := by
    intro h g
    rw [mem_downstreamSet, mem_upstreamSet]
  refine ⟨rfl, rfl, rfl, rfl, hdual, ?_, ?_⟩
  · intro h g grp2h grp2g hh hg
    rw [ofStage1_groups_getElem] at hh hg
    rcases hmh : t.groups[h]? with _ | grph
    · rw [hmh] at hh; cases hh
    rcases hmg : t.groups[g]? with _ | grpg
    · rw [hmg] at hg; cases hg
    rw [hmh] at hh
    rw [hmg] at hg
    simp only [Option.map_some'] at hh hg
    cases hh
    cases hg
    simp only [Finset.mem_sort]
    exact hdual h g
  · intro h grp1 grp2 h1 h2
    rw [ofStage1_groups_getElem, h1] at h2
    simp only [Option.map_some'] at h2
    cases h2
    refine ⟨rfl, rfl, Finset.sort_sorted _ _, Finset.sort_nodup _ _,
      Finset.sort_sorted _ _, Finset.sort_nodup _ _, ?_, ?_⟩
    · intro g
      simp only [Finset.mem_sort]
      rw [mem_downstreamSet, mem_edgeList]
      constructor
      · rintro ⟨⟨grp, hget, hrest⟩, hne⟩
        rw [h1] at hget
        cases hget
        exact ⟨hne, hrest⟩
      · rintro ⟨hne, hrest⟩
        exact ⟨⟨grp1, h1, hrest⟩, hne⟩
    · intro g
      simp only [Finset.mem_sort]
      rw [mem_upstreamSet, mem_edgeList]
      exact And.comm

/-- C10 demonstration input: node 0 (group 0) has child node 1, which
lives in group 1. -/
def stage1demo : Stage1 :=
  { ops := [(⟨[1]⟩, 0), (⟨[]⟩, 1)], root := 0,
    groups := [⟨[], [0]⟩, ⟨[], [1]⟩], num_choices := 0, vars := [] }

/-- C10 witness: on the demonstration input, group 1 is downstream of
group 0 and, by the theorem's duality, group 0 is upstream of
group 1. -/
theorem claim_c10_witness :
    (Stage2.ofStage1 stage1demo).ops = stage1demo.ops ∧
    (1 ∈ downstreamSet stage1demo 0 ↔ 0 ∈ upstreamSet stage1demo 1) ∧
    0 ∈ upstreamSet stage1demo 1 :=
  ⟨(claim_c10 stage1demo).1,
   (claim_c10 stage1demo).2.2.2.2.1 0 1,
   ((claim_c10 stage1demo).2.2.2.2.1 0 1).mp (by decide)⟩

/-- If the first input slice has fewer than four elements, the whole
call returns with nothing written (the Rust loop hits `None` while
assembling the very first chunk and returns). -/
theorem eval_s_short (g : F → F → F → F) (xs ys zs out : List F)
    (h : xs.length < 4) : eval_s g xs ys zs out = out := by
  rcases xs with _ | ⟨x0, _ | ⟨x1, _ | ⟨x2, _ | ⟨x3, xs⟩⟩⟩⟩
  · rfl
  · rfl
  · rfl
  · rfl
  · simp only [List.length_cons] at h
    omega

/-- A list of length at least four splits off four heads. -/
theorem exists_cons4 (l : List F) (h : 4 ≤ l.length) :
    ∃ a b c d t, l = a :: b :: c :: d :: t := by
  rcases l with _ | ⟨a, _ | ⟨b, _ | ⟨c, _ | ⟨d, t⟩⟩⟩⟩
  · simp only [List.length_nil] at h; omega
  · simp only [List.length_cons, List.length_nil] at h; omega
  · simp only [List.length_cons, List.length_nil] at h; omega
  · simp only [List.length_cons, List.length_nil] at h; omega
  · exact ⟨a, b, c, d, t, rfl⟩

/-- Indexing past four cons cells. -/
theorem getElem?_cons4 {α : Type} (a b c d : α) (l : List α) (j : Nat) :
    (a :: b :: c :: d :: l)[j + 4]? = l[j]? := by
  rw [show j + 4 = j + 1 + 1 + 1 + 1 by omega]
  simp [List.getElem?_cons_succ]

/-- The chunked behaviour of `eval_s` on equal-length slices: indices
inside complete chunks of four receive the lane result, indices of a
trailing partial chunk (and beyond) are left untouched, and the output
length is preserved. -/
theorem eval_s_spec_aux (g : F → F → F → F) :
    ∀ (n : Nat) (xs ys zs out : List F), xs.length = n →
      ys.length = n → zs.length = n → out.length = n →
      (eval_s g xs ys zs out).length = out.length ∧
      (∀ i, i < 4 * (xs.length / 4) →
        (eval_s g xs ys zs out)[i]? =
          (xs[i]?).bind fun x => (ys[i]?).bind fun y =>
            (zs[i]?).map fun z => g x y z) ∧
      (∀ i, 4 * (xs.length / 4) ≤ i →
        (eval_s g xs ys zs out)[i]? = out[i]?) := by
  intro n
  induction n using Nat.strong_induction_on with
  | _ n ih =>
    intro xs ys zs out hx hy hz ho
    rcases lt_or_ge n 4 with h4 | h4
    · have he : eval_s g xs ys zs out = out :=
        eval_s_short g xs ys zs out (by omega)
    -- with fewer than four elements no chunk completes: n / 4 = 0
      have hq : xs.length / 4 = 0 := by rw [hx]; exact Nat.div_eq_of_lt h4
      refine ⟨by rw [he], ?_, ?_⟩
      · intro i hi
        rw [hq] at hi
        omega
      · intro i _
        rw [he]
    · obtain ⟨x0, x1, x2, x3, xs', rfl⟩ := exists_cons4 xs (by omega)
      obtain ⟨y0, y1, y2, y3, ys', rfl⟩ := exists_cons4 ys (by omega)
      obtain ⟨z0, z1, z2, z3, zs', rfl⟩ := exists_cons4 zs (by omega)
      obtain ⟨o0, o1, o2, o3, os', rfl⟩ := exists_cons4 out (by omega)
      simp only [List.length_cons] at hx hy hz ho
      have heval : eval_s g (x0 :: x1 :: x2 :: x3 :: xs')
          (y0 :: y1 :: y2 :: y3 :: ys') (z0 :: z1 :: z2 :: z3 :: zs')
          (o0 :: o1 :: o2 :: o3 :: os') =
          g x0 y0 z0 :: g x1 y1 z1 :: g x2 y2 z2 :: g x3 y3 z3 ::
            eval_s g xs' ys' zs' os' := rfl
      obtain ⟨ihlen, ih2, ih3⟩ := ih (n - 4) (by omega) xs' ys' zs' os'
        (by omega) (by omega) (by omega) (by omega)
      have hdiv : (xs'.length + 1 + 1 + 1 + 1) / 4 = xs'.length / 4 + 1 := by
        rw [show xs'.length + 1 + 1 + 1 + 1 = xs'.length + 4 by omega]
        exact Nat.add_div_right _ (by decide)
      refine ⟨?_, ?_, ?_⟩
      · rw [heval]
        simp only [List.length_cons]
        omega
      · intro i hi
        simp only [List.length_cons, hdiv] at hi
        by_cases hi4 : i < 4
        · rcases i with _ | _ | _ | _ | i
          · simp [heval]
          · simp [heval]
          · simp [heval]
          · simp [heval]
          · omega
        · obtain ⟨j, rfl⟩ : ∃ j, i = j + 4 := ⟨i - 4, by omega⟩
          rw [heval, getElem?_cons4, getElem?_cons4, getElem?_cons4,
            getElem?_cons4]
          exact ih2 j (by omega)
      · intro i hi
        simp only [List.length_cons, hdiv] at hi
        obtain ⟨j, rfl⟩ : ∃ j, i = j + 4 := ⟨i - 4, by omega⟩
        rw [heval, getElem?_cons4, getElem?_cons4]
        exact ih3 j (by omega)

/-- C4 counterexample: with a single-element slice (n = 1, a trailing
partial chunk), `eval_s` returns before computing anything and writes no
output at all, while the claim demands `out[0]` receive the compiled
function's result. -/
theorem claim_c4_counterexample :
    eval_s (fun _ _ _ => F.fin 7) [F.fin 1] [F.fin 1] [F.fin 1]
        [F.fin 0] = [F.fin 0] ∧
    (fun (_ _ _ : F) => F.fin 7) (F.fin 1) (F.fin 1) (F.fin 1) =
      F.fin 7 ∧
    (F.fin 0 : F) ≠ F.fin 7 := by
  refine ⟨rfl, rfl, ?_⟩
  decide

/-- C4 (amended): for input slices and an output slice of equal length
`n`, `eval_s` writes `out[i] = f(xs[i], ys[i], zs[i])` exactly for the
indices of complete chunks of four (`i < 4·(n/4)`); the indices of a
trailing partial chunk are NOT written — the loop returns early at
end-of-slice — and nothing is written past the end of `out`, whose
length is preserved. -/
theorem claim_c4_amended (g : F → F → F → F) (xs ys zs out : List F)
    (hy : ys.length = xs.length) (hz : zs.length = xs.length)
    (ho : out.length = xs.length) :
    (eval_s g xs ys zs out).length = out.length ∧
    (∀ i, i < 4 * (xs.length / 4) →
      (eval_s g xs ys zs out)[i]? =
        (xs[i]?).bind fun x => (ys[i]?).bind fun y =>
          (zs[i]?).map fun z => g x y z) ∧
    (∀ i, 4 * (xs.length / 4) ≤ i →
      (eval_s g xs ys zs out)[i]? = out[i]?) :=
  eval_s_spec_aux g xs.length xs ys zs out rfl hy hz ho

/-- C4 demonstration slices of length 6: one complete chunk and a
partial chunk of two. -/
def list6 : List F :=
  [F.fin 1, F.fin 2, F.fin 3, F.fin 4, F.fin 5, F.fin 6]

/-- C4 witness: on length-6 slices the first chunk's outputs are
written and the trailing partial chunk's are untouched. -/
theorem claim_c4_witness :
    (eval_s (fun _ _ _ => F.fin 7) list6 list6 list6
        (List.replicate 6 (F.fin 0)))[0]? = some (F.fin 7) ∧
    (eval_s (fun _ _ _ => F.fin 7) list6 list6 list6
        (List.replicate 6 (F.fin 0)))[4]? = some (F.fin 0) ∧
    (eval_s (fun _ _ _ => F.fin 7) list6 list6 list6
        (List.replicate 6 (F.fin 0))).length = 6 := by
  have h := claim_c4_amended (fun _ _ _ => F.fin 7) list6 list6 list6
    (List.replicate 6 (F.fin 0)) rfl rfl rfl
  refine ⟨?_, ?_, ?_⟩
  · rw [h.2.1 0 (by decide)]
    rfl
  · rw [h.2.2 4 (by decide)]
    rfl
  · rw [h.1]
    rfl

end Claims

end Fidget
